import Mathlib

/-!
Verification of the schedule/exception core of the eternal-anvil backend.

The embedded functions follow `app/realm_manager/models.py` (the classes
`Schedule` and `ScheduleException`) and `app/realm_manager/fields.py`
(`DayScheduleField`).  Day-schedule values are Python ints, embedded as `Int`;
encodings are Python lists, embedded as `List Int`.
-/

namespace EternalAnvil

/-- Ascending sort, embedding Python's builtin `sorted` on integer lists. -/
def pySorted (l : List Int) : List Int :=
  l.insertionSort (· ≤ ·)

/-- One step of the counting loop's key set: `item_count.setdefault(item, 0)`
inserts the key at the end of the dict's key order when it is new. -/
def insertKey (keys : List Int) (x : Int) : List Int :=
  if x ∈ keys then keys else keys ++ [x]

/-- Keys of the Python dict built by the loop in `apply_exception`, in
insertion order: each distinct value of `l`, at its first occurrence. -/
def dictKeys (l : List Int) : List Int :=
  l.foldl insertKey []

/-- Embedding of `ScheduleException.apply_exception` from
`app/realm_manager/models.py`:
`combined = schedule + self.changes`; `item_count` counts each value's
occurrences in `combined`; `filtered` keeps the dict keys whose count is
exactly 1; the result is `sorted(filtered)`. -/
def apply_exception (schedule changes : List Int) : List Int :=
  let combined := schedule ++ changes
  let filtered := (dictKeys combined).filter (fun item => combined.count item == 1)
  pySorted filtered

/-- Embedding of `DayScheduleField.pre_save` from `app/realm_manager/fields.py`:
`return sorted(value)`.  This is the spec's `normalize`. -/
def normalize (value : List Int) : List Int :=
  pySorted value

/-- Validation errors surfaced for a `DayScheduleField` value.  Out-of-range
items are reported per item (the array field wraps the bound
`MinValueValidator(0)` / `MaxValueValidator(288)` failures with code
`item_invalid`); duplicates are reported with code `items_not_unique`. -/
inductive FieldError where
  | item_invalid : Int → FieldError
  | items_not_unique : FieldError
deriving DecidableEq

/-- Modelled from the spec: the field-cleaning pipeline that combines the
per-item range validators declared in `DayScheduleField.__init__`
(`MinValueValidator(0)`, `MaxValueValidator(288)`) with the uniqueness check
in `DayScheduleField.validate` (`len(value) > len(set(value))` raises with
code `items_not_unique`) is framework code not part of this repository.
Per the spec (§4.1) the two checks are independent and both are enforced,
reported distinctly, so validation is embedded as the list of all errors the
two checks raise: one `item_invalid` per out-of-range item, plus
`items_not_unique` when the number of distinct values is below the length. -/
def validate (value : List Int) : List FieldError :=
  (value.filter (fun v => decide (v < 0) || decide (288 < v))).map FieldError.item_invalid
    ++ (if value.dedup.length < value.length then [FieldError.items_not_unique] else [])

/-- A Python `datetime.date`, as a year/month/day triple. -/
structure PyDate where
  year : Nat
  month : Nat
  day : Nat

/-- Modelled from the spec: Python's `datetime._is_leap`, used by the
`date.isoweekday()` the source calls, is standard-library code not part of
this repository. -/
def isLeap (y : Nat) : Bool :=
  y % 4 == 0 && (y % 100 != 0 || y % 400 == 0)

/-- Modelled from the spec: days in all years before `year` in the proleptic
Gregorian calendar (Python's `datetime._days_before_year`). -/
def daysBeforeYear (year : Nat) : Nat :=
  (year - 1) * 365 + (year - 1) / 4 - (year - 1) / 100 + (year - 1) / 400

/-- Modelled from the spec: days before the first of `month` in `year`
(Python's `datetime._days_before_month`; index 0 of the table is unused). -/
def daysBeforeMonth (year month : Nat) : Nat :=
  [0, 0, 31, 59, 90, 120, 151, 181, 212, 243, 273, 304, 334].getD month 0
    + (if 2 < month && isLeap year then 1 else 0)

/-- Modelled from the spec: Python's `date.toordinal()`, the proleptic
Gregorian ordinal with day 1 = 0001-01-01, a Monday. -/
def toOrdinal (d : PyDate) : Nat :=
  daysBeforeYear d.year + daysBeforeMonth d.year d.month + d.day

/-- Modelled from the spec: Python's `date.isoweekday()`,
`self.toordinal() % 7 or 7` — the locale-independent ISO weekday numbering
with Monday = 1 ... Sunday = 7. -/
def isoweekday (d : PyDate) : Nat :=
  if toOrdinal d % 7 = 0 then 7 else toOrdinal d % 7

/-- Embedding of the `Schedule` model: seven per-weekday encodings, plus the
`exceptions` related manager.  The database constraint `one_exception_per_day`
guarantees at most one `ScheduleException` per date, so the manager is
embedded as a partial map from dates to that exception's `changes`. -/
structure Schedule where
  monday : List Int
  tuesday : List Int
  wednesday : List Int
  thursday : List Int
  friday : List Int
  saturday : List Int
  sunday : List Int
  exceptions : PyDate → Option (List Int)

/-- Embedding of `Schedule.get_day_schedule` from
`app/realm_manager/models.py`: index the list of the seven day fields with
`date.isoweekday() - 1`, then return the base schedule unless an exception
exists for the exact date, in which case apply it. -/
def get_day_schedule (s : Schedule) (d : PyDate) : List Int :=
  let ordered_days :=
    [s.monday, s.tuesday, s.wednesday, s.thursday, s.friday, s.saturday, s.sunday]
  let base_schedule := ordered_days.getD (isoweekday d - 1) []
  match s.exceptions d with
  | none => base_schedule
  | some changes => apply_exception base_schedule changes

/-- Formalization of the spec's merge sentence, for comparison with
`apply_exception`: count occurrences of each distinct value across the
concatenation, keep exactly the values whose total count is 1, and sort the
survivors ascending. -/
def mergeSpec (base changes : List Int) : List Int :=
  (((base ++ changes).toFinset.filter
      (fun x => (base ++ changes).count x = 1)).sort (· ≤ ·))

/-- Formalization of the spec's ISO weekday selection: an explicit mapping
from ISO weekday numbers (Monday = 1 ... Sunday = 7) to the day fields. -/
def isoSelect (s : Schedule) (w : Nat) : List Int :=
  match w with
  | 1 => s.monday
  | 2 => s.tuesday
  | 3 => s.wednesday
  | 4 => s.thursday
  | 5 => s.friday
  | 6 => s.saturday
  | 7 => s.sunday
  | _ => []

theorem mem_foldl_insertKey (l : List Int) : ∀ (acc : List Int) (x : Int),
    x ∈ l.foldl insertKey acc ↔ x ∈ acc ∨ x ∈ l := by
  induction l with
  | nil => intro acc x; simp
  | cons y l ih =>
    intro acc x
    rw [List.foldl_cons, ih]
    unfold insertKey
    by_cases hy : y ∈ acc
    · simp only [if_pos hy, List.mem_cons]
      constructor
      · rintro (h | h) <;> tauto
      · rintro (h | rfl | h) <;> tauto
    · simp only [if_neg hy, List.mem_append, List.mem_singleton, List.mem_cons]
      tauto

theorem nodup_foldl_insertKey (l : List Int) : ∀ acc : List Int,
    acc.Nodup → (l.foldl insertKey acc).Nodup := by
  induction l with
  | nil => intro acc h; simpa
  | cons y l ih =>
    intro acc h
    rw [List.foldl_cons]
    apply ih
    unfold insertKey
    by_cases hy : y ∈ acc
    · simpa [hy]
    · simp [hy, List.nodup_append, h]

theorem mem_dictKeys {l : List Int} {x : Int} : x ∈ dictKeys l ↔ x ∈ l := by
  unfold dictKeys
  rw [mem_foldl_insertKey]
  simp

theorem nodup_dictKeys (l : List Int) : (dictKeys l).Nodup :=
  nodup_foldl_insertKey l [] List.nodup_nil

theorem count_nodup {l : List Int} (h : l.Nodup) (x : Int) :
    l.count x = if x ∈ l then 1 else 0 := by
  induction l with
  | nil => simp
  | cons b l ih =>
    rw [List.nodup_cons] at h
    by_cases hx : x = b
    · subst hx
      simp [List.count_cons, List.count_eq_zero_of_not_mem h.1]
    · simp [List.count_cons, hx, ih h.2]

theorem mem_apply_exception {a b : List Int} {x : Int} :
    x ∈ apply_exception a b ↔ (a ++ b).count x = 1 := by
  unfold apply_exception pySorted
  rw [(List.perm_insertionSort _ _).mem_iff, List.mem_filter, mem_dictKeys]
  simp only [beq_iff_eq]
  constructor
  · exact fun h => h.2
  · exact fun h => ⟨List.count_pos_iff.1 (by omega), h⟩

theorem nodup_apply_exception (a b : List Int) : (apply_exception a b).Nodup := by
  unfold apply_exception pySorted
  rw [(List.perm_insertionSort _ _).nodup_iff]
  exact (nodup_dictKeys _).filter _

theorem sorted_le_apply_exception (a b : List Int) :
    (apply_exception a b).Sorted (· ≤ ·) :=
  List.sorted_insertionSort _ _

theorem sorted_lt_apply_exception (a b : List Int) :
    (apply_exception a b).Sorted (· < ·) :=
  (sorted_le_apply_exception a b).lt_of_le (nodup_apply_exception a b)

theorem sorted_lt_ext {l₁ l₂ : List Int} (s₁ : l₁.Sorted (· < ·))
    (s₂ : l₂.Sorted (· < ·)) (h : ∀ x, x ∈ l₁ ↔ x ∈ l₂) : l₁ = l₂ :=
  List.eq_of_perm_of_sorted ((List.perm_ext_iff_of_nodup s₁.nodup s₂.nodup).2 h)
    s₁.le_of_lt s₂.le_of_lt

theorem mem_mergeSpec {a b : List Int} {x : Int} :
    x ∈ mergeSpec a b ↔ (a ++ b).count x = 1 := by
  unfold mergeSpec
  rw [Finset.mem_sort, Finset.mem_filter, List.mem_toFinset]
  constructor
  · exact fun h => h.2
  · exact fun h => ⟨List.count_pos_iff.1 (by omega), h⟩

theorem sorted_lt_mergeSpec (a b : List Int) : (mergeSpec a b).Sorted (· < ·) :=
  Finset.sort_sorted_lt _

theorem apply_exception_eq_mergeSpec (a b : List Int) :
    apply_exception a b = mergeSpec a b :=
  sorted_lt_ext (sorted_lt_apply_exception a b) (sorted_lt_mergeSpec a b)
    (fun _ => mem_apply_exception.trans mem_mergeSpec.symm)

/-- C1: for every pair of integer sequences `base` and `changes`,
`apply_exception base changes` equals the ascending sort of exactly those
values whose total occurrence count in the concatenation of `base` and
`changes` is exactly 1 (the spec's counting description, formalized as
`mergeSpec`). -/
theorem apply_exception_is_sorted_symm_diff :
    ∀ base changes : List Int, apply_exception base changes = mergeSpec base changes :=
  fun base changes => apply_exception_eq_mergeSpec base changes

/-- C2: the spec's two worked examples of the exception merge hold exactly. -/
theorem apply_exception_worked_examples :
    apply_exception [0, 25, 50, 75, 100] [20, 60, 100] = [0, 20, 25, 50, 60, 75]
      ∧ apply_exception [0, 10, 25] [10, 15] = [0, 15, 25] := by
  constructor <;> decide

/-- C6: for every valid (duplicate-free, in-range) encoding `base`,
`apply_exception base base = []`: every value appears twice in the
concatenation, so all values cancel. -/
theorem apply_exception_self_cancel (base : List Int) (h1 : base.Nodup)
    (h2 : ∀ v ∈ base, 0 ≤ v ∧ v ≤ 288) : apply_exception base base = [] := by
  apply sorted_lt_ext (sorted_lt_apply_exception _ _) List.sorted_nil
  intro x
  simp only [mem_apply_exception, List.count_append, List.not_mem_nil, iff_false]
  omega

/-- Witness for C6 at the concrete valid encoding `[0, 5, 288]`. -/
theorem apply_exception_self_cancel_witness :
    apply_exception [0, 5, 288] [0, 5, 288] = [] :=
  apply_exception_self_cancel [0, 5, 288] (by decide) (by decide)

/-- C7: for every valid (duplicate-free, in-range) encoding `base`, applying
an empty exception is the identity up to normalization:
`apply_exception base [] = normalize base`, the ascending sort of `base`. -/
theorem apply_exception_empty_identity (base : List Int) (h1 : base.Nodup)
    (h2 : ∀ v ∈ base, 0 ≤ v ∧ v ≤ 288) :
    apply_exception base [] = normalize base := by
  apply sorted_lt_ext (sorted_lt_apply_exception _ _)
  · exact (List.sorted_insertionSort _ _).lt_of_le
      ((List.perm_insertionSort _ _).nodup_iff.2 h1)
  · intro x
    unfold normalize pySorted
    rw [mem_apply_exception, List.append_nil, count_nodup h1,
      (List.perm_insertionSort _ _).mem_iff]
    by_cases hx : x ∈ base <;> simp [hx]

/-- Witness for C7 at the concrete valid encoding `[25, 0]`. -/
theorem apply_exception_empty_identity_witness :
    apply_exception [25, 0] [] = normalize [25, 0] :=
  apply_exception_empty_identity [25, 0] (by decide) (by decide)

/-- C8: the exception merge is commutative:
`apply_exception a b = apply_exception b a` for all `a` and `b`. -/
theorem apply_exception_comm :
    ∀ a b : List Int, apply_exception a b = apply_exception b a :=
  fun a b =>
    sorted_lt_ext (sorted_lt_apply_exception a b) (sorted_lt_apply_exception b a)
      (fun x => by
        rw [mem_apply_exception, mem_apply_exception, List.count_append,
          List.count_append, Nat.add_comm])

/-- C9: for every pair of integer sequences, the output of `apply_exception`
is strictly increasing (hence duplicate-free), and when all input values lie
in [0, 288] so do all output values: the merge always produces a canonical
interval encoding. -/
theorem apply_exception_canonical (a b : List Int) :
    (apply_exception a b).Sorted (· < ·) ∧ (apply_exception a b).Nodup ∧
      ((∀ v ∈ a ++ b, 0 ≤ v ∧ v ≤ 288) → ∀ v ∈ apply_exception a b, 0 ≤ v ∧ v ≤ 288) := by
  refine ⟨sorted_lt_apply_exception a b, nodup_apply_exception a b, fun h v hv => ?_⟩
  rw [mem_apply_exception] at hv
  exact h v (List.count_pos_iff.1 (by omega))

/-- Witness for C9 at the concrete unsorted input `[25, 0]`, `[20]`. -/
theorem apply_exception_canonical_witness :
    (apply_exception [25, 0] [20]).Sorted (· < ·) ∧ (apply_exception [25, 0] [20]).Nodup ∧
      ∀ v ∈ apply_exception [25, 0] [20], 0 ≤ v ∧ v ≤ 288 := by
  have h := apply_exception_canonical [25, 0] [20]
  exact ⟨h.1, h.2.1, h.2.2 (by decide)⟩

/-- C10: applying the same exception twice restores the base schedule up to
normalization: for duplicate-free `b` and `c`,
`apply_exception (apply_exception b c) c = normalize b`. -/
theorem apply_exception_involution (b c : List Int) (hb : b.Nodup) (hc : c.Nodup) :
    apply_exception (apply_exception b c) c = normalize b := by
  apply sorted_lt_ext (sorted_lt_apply_exception _ _)
  · exact (List.sorted_insertionSort _ _).lt_of_le
      ((List.perm_insertionSort _ _).nodup_iff.2 hb)
  · intro x
    have hr := count_nodup (nodup_apply_exception b c) x
    have hbx := count_nodup hb x
    have hcx := count_nodup hc x
    unfold normalize pySorted
    rw [mem_apply_exception, List.count_append, hr, hcx,
      (List.perm_insertionSort _ _).mem_iff]
    by_cases hxb : x ∈ b <;> by_cases hxc : x ∈ c <;>
      simp [mem_apply_exception, List.count_append, hbx, hcx, hxb, hxc]

/-- Witness for C10 at the concrete encodings `[0, 10, 25]` and `[10, 15]`. -/
theorem apply_exception_involution_witness :
    apply_exception (apply_exception [0, 10, 25] [10, 15]) [10, 15] = normalize [0, 10, 25] :=
  apply_exception_involution [0, 10, 25] [10, 15] (by decide) (by decide)

theorem isoweekday_bounds (d : PyDate) : 1 ≤ isoweekday d ∧ isoweekday d ≤ 7 := by
  unfold isoweekday
  have h : toOrdinal d % 7 < 7 := Nat.mod_lt _ (by omega)
  by_cases h0 : toOrdinal d % 7 = 0
  · rw [if_pos h0]; omega
  · rw [if_neg h0]; omega

theorem getD_ordered_days (s : Schedule) (w : Nat) (h1 : 1 ≤ w) (h2 : w ≤ 7) :
    [s.monday, s.tuesday, s.wednesday, s.thursday, s.friday,
        s.saturday, s.sunday].getD (w - 1) []
      = isoSelect s w := by
  interval_cases w <;> rfl

/-- C3: `get_day_schedule` selects the base encoding by the ISO weekday
numbering (Monday = 1 ... Sunday = 7, formalized as `isoSelect`); when an
exception exists for the exact date it returns the exception merge of the
selected base with the exception's changes, otherwise the selected base.
The date 2024-01-01, a Monday, has ISO weekday 1 and so selects `monday`. -/
theorem get_day_schedule_iso_spec :
    (∀ (s : Schedule) (d : PyDate),
        get_day_schedule s d =
          match s.exceptions d with
          | none => isoSelect s (isoweekday d)
          | some changes => apply_exception (isoSelect s (isoweekday d)) changes)
      ∧ isoweekday ⟨2024, 1, 1⟩ = 1 := by
  refine ⟨fun s d => ?_, by decide⟩
  have hb := isoweekday_bounds d
  simp only [get_day_schedule]
  rw [getD_ordered_days s _ hb.1 hb.2]

theorem dedup_length_lt_iff {l : List Int} :
    l.dedup.length < l.length ↔ ¬ l.Nodup := by
  constructor
  · intro h hn
    rw [List.dedup_eq_self.2 hn] at h
    omega
  · intro hn
    have hsub := l.dedup_sublist
    rcases Nat.lt_or_ge l.dedup.length l.length with h | h
    · exact h
    · exfalso
      apply hn
      have he : l.dedup = l := hsub.eq_of_length (Nat.le_antisymm hsub.length_le h)
      rw [← he]
      exact l.nodup_dedup

theorem mem_validate_unique {value : List Int} :
    FieldError.items_not_unique ∈ validate value ↔ ¬ value.Nodup := by
  rw [← dedup_length_lt_iff]
  unfold validate
  by_cases h : value.dedup.length < value.length <;> simp [h]

theorem mem_validate_invalid {value : List Int} {v : Int} :
    FieldError.item_invalid v ∈ validate value ↔ v ∈ value ∧ (v < 0 ∨ 288 < v) := by
  unfold validate
  by_cases h : value.dedup.length < value.length <;>
    simp [h, List.mem_filter]

theorem validate_eq_nil {value : List Int} :
    validate value = [] ↔ value.Nodup ∧ ∀ v ∈ value, 0 ≤ v ∧ v ≤ 288 := by
  unfold validate
  simp only [List.append_eq_nil, List.map_eq_nil_iff, List.filter_eq_nil_iff,
    Bool.or_eq_true, decide_eq_true_eq, not_or]
  constructor
  · rintro ⟨h1, h2⟩
    refine ⟨?_, fun v hv => ?_⟩
    · by_contra hn
      rw [if_pos (dedup_length_lt_iff.2 hn)] at h2
      exact List.cons_ne_nil _ _ h2
    · have := h1 v hv
      omega
  · rintro ⟨h1, h2⟩
    refine ⟨fun v hv => ?_, ?_⟩
    · have := h2 v hv
      omega
    · rw [if_neg]
      rw [dedup_length_lt_iff]
      exact not_not_intro h1

/-- C4: validation reports `items_not_unique` exactly when some value repeats,
reports a per-item out-of-range error exactly when some value lies outside
[0, 288], and succeeds (no errors) exactly when the values are pairwise
distinct and all within [0, 288]; in particular `[-1]` and `[289]` fail with
the range error while `[0]` and `[288]` succeed. -/
theorem validate_spec (value : List Int) :
    (FieldError.items_not_unique ∈ validate value ↔ ¬ value.Nodup)
      ∧ ((∃ v, FieldError.item_invalid v ∈ validate value) ↔ ∃ v ∈ value, v < 0 ∨ 288 < v)
      ∧ (validate value = [] ↔ value.Nodup ∧ ∀ v ∈ value, 0 ≤ v ∧ v ≤ 288)
      ∧ FieldError.item_invalid (-1) ∈ validate [-1]
      ∧ FieldError.item_invalid 289 ∈ validate [289]
      ∧ validate [0] = [] ∧ validate [288] = [] := by
  refine ⟨mem_validate_unique, ?_, validate_eq_nil, by decide, by decide, by decide, by decide⟩
  constructor
  · rintro ⟨v, hv⟩
    rw [mem_validate_invalid] at hv
    exact ⟨v, hv.1, hv.2⟩
  · rintro ⟨v, hv, hr⟩
    exact ⟨v, mem_validate_invalid.2 ⟨hv, hr⟩⟩

end EternalAnvil
